import Mathlib

/-!
# Verification of pkg/pipeline/pipeline.go

A shallow embedding of the staged concurrent pipeline in
src/pkg/pipeline/pipeline.go, together with theorems settling the claims
about it.

Modelling conventions:

* A channel is embedded as the finite list of values it carries before it
  is closed.
* Each stage worker is a Lean function on such lists.  The boolean second
  component of a worker result records whether the worker closed its
  outbound channel on the exit path taken (the Go code closes via a
  deferred call, so this is true on every path; the embedding keeps the
  component so that each exit path of the source is visible).
* The race of a blocking send against ctx.Done() in a select statement is
  resolved by an oracle ctxDoneAt : Nat → Bool giving, for each loop
  iteration, which branch the scheduler picked.  An all-false oracle is
  the run with no cancellation.
* The merge stage is genuinely concurrent (one forwarding goroutine per
  inbound channel plus a closing goroutine gated on a sync.WaitGroup), so
  it is embedded as a small-step state machine: a scheduler is a list of
  actions, each action being one atomic step of one goroutine.
* Facts about the Go function signatures and about which channel
  operations sit inside a select statement are transcribed verbatim from
  the source into small structural tables.
-/

namespace PipelineGo

/-- The all-false race oracle: the run in which cancellation never wins
a select (ctx is never done, or the send branch is always ready first). -/
def noCtx : Nat → Bool := fun _ => false

/-- Embedding of generate (pipeline.go lines 21-34).  The worker loops
over the remaining numbers; at iteration i the select either sends the
head on out (oracle false) or sees ctx.Done() and returns early (oracle
true).  The deferred close(out) runs on both exit paths, recorded as the
true second component.  Result: (values emitted on out, out was closed). -/
def generate (ctxDoneAt : Nat → Bool) : List Int → Nat → List Int × Bool
  | [], _ => ([], true)
  | n :: rest, i =>
    if ctxDoneAt i then
      ([], true)
    else
      let r := generate ctxDoneAt rest (i + 1)
      (n :: r.1, r.2)

/-- Embedding of power (pipeline.go lines 37-50).  The worker ranges over
the inbound channel; for each received n the select either sends n * n on
out or sees ctx.Done() and returns early.  The deferred close(out) runs on
both exit paths. -/
def power (ctxDoneAt : Nat → Bool) : List Int → Nat → List Int × Bool
  | [], _ => ([], true)
  | n :: rest, i =>
    if ctxDoneAt i then
      ([], true)
    else
      let r := power ctxDoneAt rest (i + 1)
      (n * n :: r.1, r.2)

/-- The accumulation loop of sum (pipeline.go lines 56-59):
for n := range in { total += n }. -/
def sumLoop : List Int → Int → Int
  | [], total => total
  | n :: rest, total => sumLoop rest (total + n)

/-- Embedding of sum (pipeline.go lines 53-64).  The worker drains the
inbound channel accumulating total (initially the zero value of int),
then sends total once on out and closes out.  It never looks at any
context. -/
def sum (inbound : List Int) : List Int × Bool :=
  ([sumLoop inbound 0], true)

/-!
## Structural tables transcribed from the Go source

Parameter lists of the four stage constructor functions, as (name, type)
pairs copied from their signatures.
-/

/-- Signature of generate (line 21):
func generate(ctx context.Context, numbers ...int) <-chan int. -/
def generateParams : List (String × String) :=
  [("ctx", "context.Context"), ("numbers", "...int")]

/-- Signature of power (line 37):
func power(ctx context.Context, in <-chan int) <-chan int. -/
def powerParams : List (String × String) :=
  [("ctx", "context.Context"), ("in", "<-chan int")]

/-- Signature of sum (line 53): func sum(in <-chan int) <-chan int. -/
def sumParams : List (String × String) :=
  [("in", "<-chan int")]

/-- Signature of merge (line 74):
func merge(ctx context.Context, channels ...<-chan int) <-chan int. -/
def mergeParams : List (String × String) :=
  [("ctx", "context.Context"), ("channels", "...<-chan int")]

/-- A blocking channel operation in a worker body; the flag records
whether the operation sits inside a select that also listens on
ctx.Done() (that is, whether it races against the cancellation token). -/
inductive BlockingOp
  | send (selectsOnCtx : Bool)
  | recv (selectsOnCtx : Bool)
deriving DecidableEq

/-- True on send operations. -/
def isSendOp : BlockingOp → Bool
  | .send _ => true
  | .recv _ => false

/-- True when the operation races against ctx.Done(). -/
def opRaces : BlockingOp → Bool
  | .send b => b
  | .recv b => b

/-- Blocking operations in one iteration of the generate worker loop
(lines 26-30): a send on out inside a select on ctx.Done(). -/
def generateLoopOps : List BlockingOp := [.send true]

/-- Blocking operations in one iteration of the power worker loop
(lines 41-47): a plain range receive on in (no select), then a send on
out inside a select on ctx.Done(). -/
def powerLoopOps : List BlockingOp := [.recv false, .send true]

/-- Blocking operations in one iteration of the merge forwarding closure
send (lines 81-87): a plain range receive on ch (no select), then a send
on out inside a select on ctx.Done(). -/
def mergeSendLoopOps : List BlockingOp := [.recv false, .send true]

/-- Blocking operations of the sum worker (lines 56-61): a plain range
receive on in, then a plain send of total on out; neither is in a select
and the function receives no context at all. -/
def sumLoopOps : List BlockingOp := [.recv false, .send false]

/-- The blocking operations of the workers the leak-prevention claim
quantifies over: source, transform, and merge forwarding workers. -/
def pipelineWorkerOps : List BlockingOp :=
  generateLoopOps ++ powerLoopOps ++ mergeSendLoopOps

/-!
## Structural model of main (pipeline.go lines 120-135)
-/

/-- The channels created in main, named by the stage producing them. -/
inductive ChanId
  | sourceOut
  | powerOut1
  | powerOut2
  | mergeOut
deriving DecidableEq

/-- One statement of main, transcribed in order from lines 121-134. -/
inductive MainStep
  | createContext
  | deferCancel
  | callGenerate (args : List Int)
  | callPower (inbound : ChanId)
  | callMerge (inbounds : List ChanId)
  | callSum (inbound : ChanId)
  | readPrint (count : Nat) (src : ChanId)
deriving DecidableEq

/-- The body of main, statement by statement:
ctx := context.Background(); ctx, cancel := context.WithCancel(ctx);
defer cancel(); in := generate(ctx, 15, 2, 9, 23, 91);
ch1 := power(ctx, in); ch2 := power(ctx, in);
out := merge(ctx, ch1, ch2); for i := 0; i < 3; i++ { fmt.Println(<-out) }. -/
def mainSteps : List MainStep :=
  [ .createContext
  , .deferCancel
  , .callGenerate [15, 2, 9, 23, 91]
  , .callPower .sourceOut
  , .callPower .sourceOut
  , .callMerge [.powerOut1, .powerOut2]
  , .readPrint 3 .mergeOut ]

/-- True on the step that would instantiate the sink stage. -/
def isSinkCall : MainStep → Bool
  | .callSum _ => true
  | _ => false

/-- The kind of pipeline stage a main statement instantiates, if any. -/
inductive StageKind
  | sourceK
  | transformK
  | mergeK
  | sinkK
deriving DecidableEq

/-- Maps each main statement to the stage it instantiates. -/
def stageOf : MainStep → Option StageKind
  | .callGenerate _ => some .sourceK
  | .callPower _ => some .transformK
  | .callMerge _ => some .mergeK
  | .callSum _ => some .sinkK
  | _ => none

/-!
## State-machine embedding of merge (pipeline.go lines 74-102)

merge starts one forwarding goroutine (the closure send) per inbound
channel, plus one closing goroutine that waits on the sync.WaitGroup and
then closes the out channel.  One Worker below is one forwarding
goroutine: pending is what its assigned inbound channel still holds (the
channel closes after the last element), exited records whether the
goroutine has returned (and hence run its deferred wg.Done()).
-/

/-- One forwarding goroutine of merge. -/
structure Worker where
  exited : Bool
  pending : List Int
deriving DecidableEq

/-- The shared state of one merge invocation: the forwarding goroutines,
the WaitGroup counter (wg.Add(len(channels)) at the start, wg.Done() on
each goroutine exit), whether close(out) has run, and the values sent on
out so far, in order. -/
structure MergeState where
  workers : List Worker
  counter : Nat
  closed : Bool
  out : List Int
deriving DecidableEq

/-- The state right after merge has spawned its goroutines: one worker
per inbound channel, none exited, counter = number of channels, out open
and empty. -/
def mergeInit (chs : List (List Int)) : MergeState :=
  { workers := chs.map (fun p => { exited := false, pending := p })
  , counter := chs.length
  , closed := false
  , out := [] }

/-- One atomic step of one merge goroutine, chosen by the scheduler:

* forward i: worker i receives the head of its channel and its select
  sends it on out;
* exitDone i: worker i sees its channel closed and empty, leaves the
  range loop, returns, and its deferred wg.Done() decrements the counter;
* cancelExit i: worker i holds a received value but its select takes the
  ctx.Done() branch; it returns early (dropping the value and the rest of
  its channel) and its deferred wg.Done() decrements the counter;
* close: the closing goroutine observes wg.Wait() satisfied (counter
  zero) and runs close(out). -/
inductive MAction
  | forward (i : Nat)
  | exitDone (i : Nat)
  | cancelExit (i : Nat)
  | close
deriving DecidableEq

/-- Applies one scheduler action to a merge state; none when the action
is not enabled there. -/
def mergeApply (s : MergeState) : MAction → Option MergeState
  | .forward i =>
    match s.workers[i]? with
    | some ⟨false, v :: rest⟩ =>
      some { s with
              workers := s.workers.set i { exited := false, pending := rest }
            , out := s.out ++ [v] }
    | _ => none
  | .exitDone i =>
    match s.workers[i]? with
    | some ⟨false, []⟩ =>
      some { s with
              workers := s.workers.set i { exited := true, pending := [] }
            , counter := s.counter - 1 }
    | _ => none
  | .cancelExit i =>
    match s.workers[i]? with
    | some ⟨false, v :: rest⟩ =>
      some { s with
              workers := s.workers.set i { exited := true, pending := v :: rest }
            , counter := s.counter - 1 }
    | _ => none
  | .close =>
    if s.counter = 0 ∧ s.closed = false then
      some { s with closed := true }
    else
      none

/-- Runs a whole schedule; none when some action is not enabled at its
turn. -/
def mergeRun (s : MergeState) : List MAction → Option MergeState
  | [] => some s
  | a :: as =>
    match mergeApply s a with
    | some s2 => mergeRun s2 as
    | none => none

/-- True on the close action. -/
def isClose : MAction → Bool
  | .close => true
  | _ => false

/-- True on a cancelExit action: the step that exists only because the
cancellation token was triggered. -/
def isCancel : MAction → Bool
  | .cancelExit _ => true
  | _ => false

/-- Number of close actions in a schedule. -/
def countClose : List MAction → Nat
  | [] => 0
  | a :: as => (if isClose a then 1 else 0) + countClose as

/-- A schedule with no cancellation-driven step: the run of merge in
which ctx is never cancelled. -/
def cancelFree (as : List MAction) : Bool :=
  as.all fun a => !isCancel a

/-- Number of forwarding goroutines that have not yet run wg.Done(). -/
def countUnexited : List Worker → Nat
  | [] => 0
  | w :: ws => (if w.exited then 0 else 1) + countUnexited ws

/-- Concatenation of everything the inbound channels still hold. -/
def joinPending : List Worker → List Int
  | [] => []
  | w :: ws => w.pending ++ joinPending ws

/-- Concatenation of a list of channels. -/
def flat : List (List Int) → List Int
  | [] => []
  | c :: cs => c ++ flat cs

/-- Steps a single forwarding goroutine still has to take: one per
pending value plus its final exit, none once it has exited. -/
def muCost (w : Worker) : Nat :=
  if w.exited then 0 else w.pending.length + 1

/-- Termination measure for the liveness argument: steps left before the
merge invocation is fully finished. -/
def muW : List Worker → Nat
  | [] => 0
  | w :: ws => muCost w + muW ws

/-- Full termination measure of a merge state. -/
def mu (s : MergeState) : Nat :=
  muW s.workers + (if s.closed then 0 else 1)

/-!
## Lemmas about the sequential stage workers
-/

/-- The source worker closes its outbound channel on every exit path. -/
theorem generate_closed (ctxDoneAt : Nat → Bool) :
    ∀ (numbers : List Int) (i : Nat), (generate ctxDoneAt numbers i).2 = true
  | [], _ => rfl
  | n :: rest, i => by
    by_cases h : ctxDoneAt i
    · simp [generate, h]
    · simp [generate, h, generate_closed ctxDoneAt rest (i + 1)]

/-- Whatever the race oracle, the source emits an initial segment of its
input list, in order. -/
theorem generate_front (ctxDoneAt : Nat → Bool) :
    ∀ (numbers : List Int) (i : Nat), ∃ t, (generate ctxDoneAt numbers i).1 ++ t = numbers
  | [], _ => ⟨[], rfl⟩
  | n :: rest, i => by
    by_cases h : ctxDoneAt i
    · exact ⟨n :: rest, by simp [generate, h]⟩
    · obtain ⟨t, ht⟩ := generate_front ctxDoneAt rest (i + 1)
      exact ⟨t, by simp [generate, h]; exact ht⟩

/-- With no cancellation, the source emits the whole input list. -/
theorem generate_noCtx : ∀ (numbers : List Int) (i : Nat), (generate noCtx numbers i).1 = numbers
  | [], _ => rfl
  | n :: rest, i => by simp [generate, noCtx, generate_noCtx rest (i + 1)]

/-- The transform worker closes its outbound channel on every exit path. -/
theorem power_closed (ctxDoneAt : Nat → Bool) :
    ∀ (l : List Int) (i : Nat), (power ctxDoneAt l i).2 = true
  | [], _ => rfl
  | n :: rest, i => by
    by_cases h : ctxDoneAt i
    · simp [power, h]
    · simp [power, h, power_closed ctxDoneAt rest (i + 1)]

/-- Whatever the race oracle, the transform worker emits an initial
segment of the squares of its input, in order. -/
theorem power_front (ctxDoneAt : Nat → Bool) :
    ∀ (l : List Int) (i : Nat), ∃ t, (power ctxDoneAt l i).1 ++ t = l.map (fun n => n * n)
  | [], _ => ⟨[], rfl⟩
  | n :: rest, i => by
    by_cases h : ctxDoneAt i
    · exact ⟨(n :: rest).map (fun n => n * n), by simp [power, h]⟩
    · obtain ⟨t, ht⟩ := power_front ctxDoneAt rest (i + 1)
      exact ⟨t, by simp [power, h]; exact ht⟩

/-- With no cancellation, the transform worker squares every received
value, in order. -/
theorem power_noCtx_map : ∀ (l : List Int) (i : Nat), (power noCtx l i).1 = l.map (fun n => n * n)
  | [], _ => rfl
  | n :: rest, i => by simp [power, noCtx, power_noCtx_map rest (i + 1)]

/-- The accumulator loop of the sink computes the list sum. -/
theorem sumLoop_eq : ∀ (l : List Int) (t : Int), sumLoop l t = t + l.sum
  | [], t => by simp [sumLoop]
  | n :: rest, t => by
    rw [sumLoop, sumLoop_eq rest (t + n), List.sum_cons]
    ring

/-!
## Claims about the sequential stages and the program structure
-/

/-- Claim C4: the source stage emits each input value in input order on
its outbound channel and then closes it; on every exit path, including
the early-termination path where cancellation wins the race against a
pending send, the outbound channel is still closed, only an initial
segment of the inputs having been sent. -/
theorem generate_contract (numbers : List Int) (ctxDoneAt : Nat → Bool) :
    (generate ctxDoneAt numbers 0).2 = true ∧
    (∃ t, (generate ctxDoneAt numbers 0).1 ++ t = numbers) ∧
    (generate noCtx numbers 0).1 = numbers :=
  ⟨generate_closed ctxDoneAt numbers 0, generate_front ctxDoneAt numbers 0,
    generate_noCtx numbers 0⟩

/-- Claim C5: for every finite sequence delivered on its inbound channel,
the sink consumes until the channel closes, then sends exactly one value,
the sum of all values received, on its result channel, and closes it. -/
theorem sum_contract (l : List Int) : sum l = ([l.sum], true) := by
  rw [sum, sumLoop_eq]
  simp

/-- Claim C9: when the sink inbound channel is closed before delivering
any value, the sink still sends exactly one value, 0, the initial
accumulator, and then closes its result channel. -/
theorem sum_empty : sum [] = ([0], true) := rfl

/-- Claim C6, counterexample: the transform stage does not take a pure
one-input-one-output function as a parameter — no parameter of power has
the Go function type func(int) int; the transformation is hardcoded. -/
theorem power_no_fn_param : (powerParams.any fun p => p.2 == "func(int) int") = false := by
  decide

/-- Claim C6 (amended): the transform stage takes no function parameter
and hardcodes the squaring transformation; for every value x received on
its inbound channel it emits x * x on its outbound channel, preserving
per-worker order, and under cancellation it emits an initial segment of
the squares and still closes its outbound channel. -/
theorem power_contract (l : List Int) (ctxDoneAt : Nat → Bool) :
    (powerParams.any fun p => p.2 == "func(int) int") = false ∧
    (power noCtx l 0).1 = l.map (fun n => n * n) ∧
    (power ctxDoneAt l 0).2 = true ∧
    (∃ t, (power ctxDoneAt l 0).1 ++ t = l.map (fun n => n * n)) :=
  ⟨by decide, power_noCtx_map l 0, power_closed ctxDoneAt l 0, power_front ctxDoneAt l 0⟩

/-- Claim C2, counterexample: it is not the case that every blocking
channel operation of the source, transform, and merge forwarding workers
races against the cancellation token — the range receives of the
transform and merge forwarding workers sit in no select on ctx.Done(). -/
theorem not_all_ops_race : (pipelineWorkerOps.all opRaces) = false := by decide

/-- Claim C2 (amended): in the source, transform, and merge forwarding
workers, every blocking send races against the cancellation token inside
a select, and no blocking receive does — the receives are plain range
loops that end only when the upstream channel closes; the sink performs
no cancellation-racing operation at all. -/
theorem sends_race_ctx :
    ((pipelineWorkerOps.filter isSendOp).all opRaces) = true ∧
    ((pipelineWorkerOps.filter fun o => !isSendOp o).all fun o => !opRaces o) = true ∧
    (sumLoopOps.filter fun o => opRaces o) = [] := by
  decide

/-- Claim C7, counterexample: main does not instantiate all four stages —
no statement of main calls the sink constructor sum. -/
theorem main_no_sink : (mainSteps.any isSinkCall) = false := by decide

/-- Claim C7 (amended): main creates the cancellation context and defers
its cancel call, so the token is triggered when the scope of main ends
regardless of whether consumption completed; it instantiates, in
dependency order, the source, a two-way transform fan-out sharing the
source output, and a merge over the two transform outputs — but no sink:
it reads the first three values directly from the merge output. -/
theorem main_wiring :
    MainStep.deferCancel ∈ mainSteps ∧
    mainSteps.filterMap stageOf = [.sourceK, .transformK, .transformK, .mergeK] ∧
    MainStep.callGenerate [15, 2, 9, 23, 91] ∈ mainSteps ∧
    MainStep.callPower .sourceOut ∈ mainSteps ∧
    MainStep.callMerge [.powerOut1, .powerOut2] ∈ mainSteps ∧
    (mainSteps.any isSinkCall) = false ∧
    MainStep.readPrint 3 .mergeOut ∈ mainSteps := by
  decide

/-- Claim C8, counterexample: the sink constructor sum does not accept
the cancellation token — no parameter of sum has type context.Context. -/
theorem sum_no_ctx_param : (sumParams.any fun p => p.2 == "context.Context") = false := by
  decide

/-- Claim C8 (amended): the source, transform, and merge constructors
each accept the cancellation token as a parameter; the sink constructor
sum does not — its only parameter is the inbound channel. -/
theorem stage_ctx_params :
    (generateParams.any fun p => p.2 == "context.Context") = true ∧
    (powerParams.any fun p => p.2 == "context.Context") = true ∧
    (mergeParams.any fun p => p.2 == "context.Context") = true ∧
    (sumParams.any fun p => p.2 == "context.Context") = false ∧
    sumParams = [("in", "<-chan int")] := by
  decide

/-!
## List indexing lemmas used by the merge invariants
-/

/-- Setting an occupied index makes lookup there return the new value. -/
theorem getSet_self {α : Type} :
    ∀ (l : List α) (i : Nat) (a b : α), l[i]? = some b → (l.set i a)[i]? = some a
  | [], i, a, b, h => by simp at h
  | _ :: _, 0, _, _, _ => by simp
  | _ :: xs, i + 1, a, b, h => by
    simpa using getSet_self xs i a b (by simpa using h)

/-- A member of a list after a set is a member of the old list or the new
value. -/
theorem mem_set {α : Type} :
    ∀ (l : List α) (i : Nat) (a x : α), x ∈ l.set i a → x ∈ l ∨ x = a
  | [], _, _, _, h => Or.inl h
  | _ :: _, 0, _, _, h => by
    rcases List.mem_cons.mp h with h | h
    · exact Or.inr h
    · exact Or.inl (List.mem_cons_of_mem _ h)
  | y :: ys, i + 1, a, x, h => by
    rcases List.mem_cons.mp h with h | h
    · exact Or.inl (h ▸ List.mem_cons_self y ys)
    · rcases mem_set ys i a x h with h | h
      · exact Or.inl (List.mem_cons_of_mem _ h)
      · exact Or.inr h

/-- How a set at an occupied index changes the unexited-worker count. -/
theorem countUnexited_set :
    ∀ (ws : List Worker) (i : Nat) (w0 w : Worker), ws[i]? = some w0 →
      countUnexited (ws.set i w) + (if w0.exited then 0 else 1) =
        countUnexited ws + (if w.exited then 0 else 1)
  | [], i, _, _, h => by simp at h
  | x :: xs, 0, w0, w, h => by
    have hx : x = w0 := by simpa using h
    subst hx
    simp [countUnexited]
    omega
  | x :: xs, i + 1, w0, w, h => by
    have := countUnexited_set xs i w0 w (by simpa using h)
    simp [countUnexited]
    omega

/-- How a set at an occupied index changes the termination measure. -/
theorem muW_set :
    ∀ (ws : List Worker) (i : Nat) (w0 w : Worker), ws[i]? = some w0 →
      muW (ws.set i w) + muCost w0 = muW ws + muCost w
  | [], i, _, _, h => by simp at h
  | x :: xs, 0, w0, w, h => by
    have hx : x = w0 := by simpa using h
    subst hx
    simp [muW]
    omega
  | x :: xs, i + 1, w0, w, h => by
    have := muW_set xs i w0 w (by simpa using h)
    simp [muW]
    omega

/-- A set at an occupied index splits the joined pending values around
the changed worker. -/
theorem joinPending_set :
    ∀ (ws : List Worker) (i : Nat) (w0 w : Worker), ws[i]? = some w0 →
      ∃ A B, joinPending ws = A ++ (w0.pending ++ B) ∧
        joinPending (ws.set i w) = A ++ (w.pending ++ B)
  | [], i, _, _, h => by simp at h
  | x :: xs, 0, w0, w, h => by
    have hx : x = w0 := by simpa using h
    subst hx
    exact ⟨[], joinPending xs, rfl, rfl⟩
  | x :: xs, i + 1, w0, w, h => by
    obtain ⟨A, B, h1, h2⟩ := joinPending_set xs i w0 w (by simpa using h)
    exact ⟨x.pending ++ A, B, by simp [joinPending, h1], by simp [joinPending, h2]⟩

/-- A positive unexited count yields an index holding an unexited
worker. -/
theorem countUnexited_pos :
    ∀ (ws : List Worker), countUnexited ws ≠ 0 →
      ∃ (i : Nat) (p : List Int), ws[i]? = some (Worker.mk false p)
  | [], h => absurd rfl h
  | w :: ws, h => by
    obtain ⟨e, p⟩ := w
    cases e with
    | false => exact ⟨0, p, by simp⟩
    | true =>
      have : countUnexited ws ≠ 0 := by
        simpa [countUnexited] using h
      obtain ⟨i, p2, hp⟩ := countUnexited_pos ws this
      exact ⟨i + 1, p2, by simpa using hp⟩

/-- Zero unexited count means every worker has exited. -/
theorem countUnexited_zero :
    ∀ (ws : List Worker), countUnexited ws = 0 → ∀ w ∈ ws, w.exited = true
  | [], _, _, hw => absurd hw (List.not_mem_nil _)
  | x :: xs, h, w, hw => by
    have hx : (if x.exited then 0 else 1) = 0 ∧ countUnexited xs = 0 := by
      rw [countUnexited] at h
      omega
    rcases List.mem_cons.mp hw with hw | hw
    · subst hw
      rcases hb : w.exited with _ | _
      · rw [hb] at hx; simp at hx
      · rfl
    · exact countUnexited_zero xs hx.2 w hw

/-- When every worker has drained, nothing is pending. -/
theorem joinPending_nil :
    ∀ (ws : List Worker), (∀ w ∈ ws, w.pending = []) → joinPending ws = []
  | [], _ => rfl
  | x :: xs, h => by
    rw [joinPending, h x (List.mem_cons_self x xs),
      joinPending_nil xs (fun w hw => h w (List.mem_cons_of_mem _ hw))]
    rfl

/-- The freshly spawned workers are all unexited: the counter matches
wg.Add(len(channels)). -/
theorem countUnexited_map (chs : List (List Int)) :
    countUnexited (chs.map fun p => { exited := false, pending := p }) = chs.length := by
  induction chs with
  | nil => rfl
  | cons c cs ih =>
    simp [countUnexited, ih]
    omega

/-- The freshly spawned workers jointly hold exactly the inbound
channels. -/
theorem joinPending_map (chs : List (List Int)) :
    joinPending (chs.map fun p => { exited := false, pending := p }) = flat chs := by
  induction chs with
  | nil => rfl
  | cons c cs ih => simp [joinPending, flat, ih]

/-!
## Invariants of the merge state machine
-/

/-- The inductive invariant of one merge invocation whose inbound
channels jointly hold F: the counter mirrors the WaitGroup (number of
workers that have not yet run wg.Done()), out is only closed once every
worker has exited, and the values sent on out plus the values still
pending are exactly the inbound values. -/
def Inv (F : List Int) (s : MergeState) : Prop :=
  s.counter = countUnexited s.workers ∧
  (s.closed = true → countUnexited s.workers = 0) ∧
  List.Perm (s.out ++ joinPending s.workers) F

/-- Absent cancellation a worker exits only by draining its channel, so
every exited worker has empty pending values. -/
def drainedExits (ws : List Worker) : Prop :=
  ∀ w ∈ ws, w.exited = true → w.pending = []

/-- Complete characterization of a successful merge step: exactly one of
the four goroutine actions fired, with its enabling condition and its
effect. -/
theorem mergeApply_cases {s s2 : MergeState} {a : MAction} (ha : mergeApply s a = some s2) :
    (∃ i v rest, s.workers[i]? = some (Worker.mk false (v :: rest)) ∧ a = .forward i ∧
      s2 = { s with workers := s.workers.set i (Worker.mk false rest)
                  , out := s.out ++ [v] }) ∨
    (∃ i, s.workers[i]? = some (Worker.mk false []) ∧ a = .exitDone i ∧
      s2 = { s with workers := s.workers.set i (Worker.mk true [])
                  , counter := s.counter - 1 }) ∨
    (∃ i v rest, s.workers[i]? = some (Worker.mk false (v :: rest)) ∧ a = .cancelExit i ∧
      s2 = { s with workers := s.workers.set i (Worker.mk true (v :: rest))
                  , counter := s.counter - 1 }) ∨
    (s.counter = 0 ∧ s.closed = false ∧ a = .close ∧ s2 = { s with closed := true }) := by
  cases a with
  | forward i =>
    simp only [mergeApply] at ha
    split at ha
    case _ v rest heq =>
      injection ha with ha
      exact Or.inl ⟨i, v, rest, heq, rfl, ha.symm⟩
    case _ => exact absurd ha (by simp)
  | exitDone i =>
    simp only [mergeApply] at ha
    split at ha
    case _ heq =>
      injection ha with ha
      exact Or.inr (Or.inl ⟨i, heq, rfl, ha.symm⟩)
    case _ => exact absurd ha (by simp)
  | cancelExit i =>
    simp only [mergeApply] at ha
    split at ha
    case _ v rest heq =>
      injection ha with ha
      exact Or.inr (Or.inr (Or.inl ⟨i, v, rest, heq, rfl, ha.symm⟩))
    case _ => exact absurd ha (by simp)
  | close =>
    simp only [mergeApply] at ha
    split at ha
    case _ hcond =>
      injection ha with ha
      exact Or.inr (Or.inr (Or.inr ⟨hcond.1, hcond.2, rfl, ha.symm⟩))
    case _ => exact absurd ha (by simp)

/-- Lists rearranged when a forwarded value moves from a pending channel
to the out channel are permutations of each other. -/
theorem perm_shuffle (o A rest B : List Int) (v : Int) :
    List.Perm ((o ++ [v]) ++ (A ++ (rest ++ B))) (o ++ (A ++ ((v :: rest) ++ B))) := by
  have h1 : (o ++ [v]) ++ (A ++ (rest ++ B)) = o ++ (v :: (A ++ (rest ++ B))) := by
    simp [List.append_assoc]
  have h2 : A ++ ((v :: rest) ++ B) = A ++ (v :: (rest ++ B)) := by simp
  rw [h1, h2]
  exact List.Perm.append_left o List.perm_middle.symm

/-- Every merge step preserves the invariant. -/
theorem mergeApply_inv {F : List Int} {s s2 : MergeState} {a : MAction}
    (h : Inv F s) (ha : mergeApply s a = some s2) : Inv F s2 := by
  obtain ⟨h1, h2, h3⟩ := h
  rcases mergeApply_cases ha with
    ⟨i, v, rest, heq, _, hs2⟩ | ⟨i, heq, _, hs2⟩ | ⟨i, v, rest, heq, _, hs2⟩ |
    ⟨hc0, hcf, _, hs2⟩
  · subst hs2
    have hcount := countUnexited_set s.workers i (Worker.mk false (v :: rest))
      (Worker.mk false rest) heq
    simp at hcount
    obtain ⟨A, B, hjp, hjp2⟩ := joinPending_set s.workers i (Worker.mk false (v :: rest))
      (Worker.mk false rest) heq
    simp only at hjp hjp2
    refine ⟨?_, ?_, ?_⟩
    · show s.counter = countUnexited (s.workers.set i (Worker.mk false rest))
      omega
    · intro hcl
      have := h2 hcl
      show countUnexited (s.workers.set i (Worker.mk false rest)) = 0
      omega
    · show List.Perm ((s.out ++ [v]) ++ joinPending (s.workers.set i (Worker.mk false rest))) F
      rw [hjp2]
      rw [hjp] at h3
      exact (perm_shuffle s.out A rest B v).trans h3
  · subst hs2
    have hcount := countUnexited_set s.workers i (Worker.mk false [])
      (Worker.mk true []) heq
    simp at hcount
    obtain ⟨A, B, hjp, hjp2⟩ := joinPending_set s.workers i (Worker.mk false [])
      (Worker.mk true []) heq
    simp only at hjp hjp2
    refine ⟨?_, ?_, ?_⟩
    · show s.counter - 1 = countUnexited (s.workers.set i (Worker.mk true []))
      omega
    · intro hcl
      have := h2 hcl
      show countUnexited (s.workers.set i (Worker.mk true [])) = 0
      omega
    · show List.Perm (s.out ++ joinPending (s.workers.set i (Worker.mk true []))) F
      rw [hjp2, ← hjp]
      exact h3
  · subst hs2
    have hcount := countUnexited_set s.workers i (Worker.mk false (v :: rest))
      (Worker.mk true (v :: rest)) heq
    simp at hcount
    obtain ⟨A, B, hjp, hjp2⟩ := joinPending_set s.workers i (Worker.mk false (v :: rest))
      (Worker.mk true (v :: rest)) heq
    simp only at hjp hjp2
    refine ⟨?_, ?_, ?_⟩
    · show s.counter - 1 = countUnexited (s.workers.set i (Worker.mk true (v :: rest)))
      omega
    · intro hcl
      have := h2 hcl
      show countUnexited (s.workers.set i (Worker.mk true (v :: rest))) = 0
      omega
    · show List.Perm (s.out ++ joinPending (s.workers.set i (Worker.mk true (v :: rest)))) F
      rw [hjp2, ← hjp]
      exact h3
  · subst hs2
    exact ⟨h1, fun _ => h1.symm.trans hc0, h3⟩

/-- A cancellation-free merge step preserves the drained-exit
discipline. -/
theorem mergeApply_nc {s s2 : MergeState} {a : MAction}
    (hnc : drainedExits s.workers) (hcancel : isCancel a = false)
    (ha : mergeApply s a = some s2) : drainedExits s2.workers := by
  rcases mergeApply_cases ha with
    ⟨i, v, rest, heq, hai, hs2⟩ | ⟨i, heq, hai, hs2⟩ | ⟨i, v, rest, heq, hai, hs2⟩ |
    ⟨hc0, hcf, hai, hs2⟩
  · subst hs2
    intro w hw hex
    rcases mem_set s.workers i (Worker.mk false rest) w hw with hw | hw
    · exact hnc w hw hex
    · subst hw
      exact absurd hex (by simp)
  · subst hs2
    intro w hw hex
    rcases mem_set s.workers i (Worker.mk true []) w hw with hw | hw
    · exact hnc w hw hex
    · subst hw
      rfl
  · subst hai
    exact absurd hcancel (by simp [isCancel])
  · subst hs2
    exact hnc

/-- A merge step other than close leaves the closed flag unchanged. -/
theorem mergeApply_closed {s s2 : MergeState} {a : MAction}
    (hne : isClose a = false) (ha : mergeApply s a = some s2) : s2.closed = s.closed := by
  rcases mergeApply_cases ha with
    ⟨i, v, rest, heq, hai, hs2⟩ | ⟨i, heq, hai, hs2⟩ | ⟨i, v, rest, heq, hai, hs2⟩ |
    ⟨hc0, hcf, hai, hs2⟩
  · subst hs2; rfl
  · subst hs2; rfl
  · subst hs2; rfl
  · subst hai
    exact absurd hne (by simp [isClose])

/-- A close step requires the flag to still be open. -/
theorem mergeApply_close_open {s s2 : MergeState}
    (ha : mergeApply s MAction.close = some s2) : s.closed = false ∧ s2.closed = true := by
  rcases mergeApply_cases ha with
    ⟨_, _, _, _, hai, _⟩ | ⟨_, _, hai, _⟩ | ⟨_, _, _, _, hai, _⟩ | ⟨hc0, hcf, hai, hs2⟩
  · exact absurd hai (by simp)
  · exact absurd hai (by simp)
  · exact absurd hai (by simp)
  · subst hs2
    exact ⟨hcf, rfl⟩

/-- Every merge step strictly decreases the termination measure. -/
theorem mergeApply_mu {s s2 : MergeState} {a : MAction}
    (ha : mergeApply s a = some s2) : mu s2 < mu s := by
  rcases mergeApply_cases ha with
    ⟨i, v, rest, heq, hai, hs2⟩ | ⟨i, heq, hai, hs2⟩ | ⟨i, v, rest, heq, hai, hs2⟩ |
    ⟨hc0, hcf, hai, hs2⟩
  · subst hs2
    have hmu := muW_set s.workers i (Worker.mk false (v :: rest)) (Worker.mk false rest) heq
    simp [muCost] at hmu
    simp only [mu]
    omega
  · subst hs2
    have hmu := muW_set s.workers i (Worker.mk false []) (Worker.mk true []) heq
    simp [muCost] at hmu
    simp only [mu]
    omega
  · subst hs2
    have hmu := muW_set s.workers i (Worker.mk false (v :: rest)) (Worker.mk true (v :: rest)) heq
    simp [muCost] at hmu
    simp only [mu]
    omega
  · subst hs2
    simp [mu, hcf]

/-!
## Whole-schedule lemmas
-/

/-- Schedules compose. -/
theorem mergeRun_append :
    ∀ (as1 as2 : List MAction) (s s1 s2 : MergeState),
      mergeRun s as1 = some s1 → mergeRun s1 as2 = some s2 →
      mergeRun s (as1 ++ as2) = some s2
  | [], as2, s, s1, s2, h1, h2 => by
    rw [mergeRun] at h1
    injection h1 with h1
    rw [h1]
    exact h2
  | a :: as1, as2, s, s1, s2, h1, h2 => by
    rw [mergeRun] at h1
    cases happ : mergeApply s a with
    | none =>
      rw [happ] at h1
      exact absurd h1 (by simp)
    | some st =>
      rw [happ] at h1
      show mergeRun s (a :: (as1 ++ as2)) = some s2
      simp only [mergeRun, happ]
      exact mergeRun_append as1 as2 st s1 s2 h1 h2

/-- countClose distributes over concatenation. -/
theorem countClose_append :
    ∀ (as bs : List MAction), countClose (as ++ bs) = countClose as + countClose bs
  | [], bs => by simp [countClose]
  | a :: as, bs => by
    simp [countClose, countClose_append as bs]
    omega

/-- The invariant holds after any successful schedule. -/
theorem mergeRun_inv {F : List Int} :
    ∀ (as : List MAction) (s s2 : MergeState),
      Inv F s → mergeRun s as = some s2 → Inv F s2
  | [], s, s2, h, hr => by
    rw [mergeRun] at hr
    injection hr with hr
    exact hr ▸ h
  | a :: as, s, s2, h, hr => by
    rw [mergeRun] at hr
    cases happ : mergeApply s a with
    | none =>
      rw [happ] at hr
      exact absurd hr (by simp)
    | some s1 =>
      rw [happ] at hr
      exact mergeRun_inv as s1 s2 (mergeApply_inv h happ) hr

/-- The drained-exit discipline survives any cancellation-free
schedule. -/
theorem mergeRun_nc :
    ∀ (as : List MAction) (s s2 : MergeState),
      drainedExits s.workers → cancelFree as = true → mergeRun s as = some s2 →
      drainedExits s2.workers
  | [], s, s2, h, _, hr => by
    rw [mergeRun] at hr
    injection hr with hr
    exact hr ▸ h
  | a :: as, s, s2, h, hcf, hr => by
    rw [mergeRun] at hr
    have hcf2 : isCancel a = false ∧ cancelFree as = true := by
      simpa [cancelFree] using hcf
    cases happ : mergeApply s a with
    | none =>
      rw [happ] at hr
      exact absurd hr (by simp)
    | some s1 =>
      rw [happ] at hr
      exact mergeRun_nc as s1 s2 (mergeApply_nc h hcf2.1 happ) hcf2.2 hr

/-- From an already-closed state no schedule can close again. -/
theorem mergeRun_closed_true :
    ∀ (as : List MAction) (s s2 : MergeState),
      s.closed = true → mergeRun s as = some s2 →
      countClose as = 0 ∧ s2.closed = true
  | [], s, s2, hc, hr => by
    rw [mergeRun] at hr
    injection hr with hr
    exact ⟨rfl, hr ▸ hc⟩
  | a :: as, s, s2, hc, hr => by
    rw [mergeRun] at hr
    cases happ : mergeApply s a with
    | none =>
      rw [happ] at hr
      exact absurd hr (by simp)
    | some s1 =>
      rw [happ] at hr
      cases hcl : isClose a with
      | true =>
        have ha : a = MAction.close := by
          cases a <;> simp [isClose] at hcl ⊢
        subst ha
        have := (mergeApply_close_open happ).1
        rw [hc] at this
        exact absurd this (by simp)
      | false =>
        have hc1 : s1.closed = true := by
          rw [mergeApply_closed hcl happ]
          exact hc
        obtain ⟨hcnt, hcl2⟩ := mergeRun_closed_true as s1 s2 hc1 hr
        exact ⟨by simp [countClose, hcl, hcnt], hcl2⟩

/-- From an open state a schedule closes at most once, and closes
exactly when one close action fired. -/
theorem mergeRun_count :
    ∀ (as : List MAction) (s s2 : MergeState),
      s.closed = false → mergeRun s as = some s2 →
      countClose as ≤ 1 ∧ (s2.closed = true ↔ countClose as = 1)
  | [], s, s2, hc, hr => by
    rw [mergeRun] at hr
    injection hr with hr
    subst hr
    exact ⟨by simp [countClose], by simp [countClose, hc]⟩
  | a :: as, s, s2, hc, hr => by
    rw [mergeRun] at hr
    cases happ : mergeApply s a with
    | none =>
      rw [happ] at hr
      exact absurd hr (by simp)
    | some s1 =>
      rw [happ] at hr
      cases hcl : isClose a with
      | true =>
        have ha : a = MAction.close := by
          cases a <;> simp [isClose] at hcl ⊢
        subst ha
        have h1 : s1.closed = true := (mergeApply_close_open happ).2
        obtain ⟨hcnt, hc2⟩ := mergeRun_closed_true as s1 s2 h1 hr
        constructor
        · simp [countClose, isClose, hcnt]
        · simp [countClose, isClose, hcnt, hc2]
      | false =>
        have h1 : s1.closed = false := by
          rw [mergeApply_closed hcl happ]
          exact hc
        obtain ⟨hle, hiff⟩ := mergeRun_count as s1 s2 h1 hr
        constructor
        · simp [countClose, hcl]
          omega
        · simp [countClose, hcl]
          exact hiff

/-!
## Enabled steps and liveness
-/

/-- A worker holding a value can always forward it. -/
theorem mergeApply_forward_enabled {s : MergeState} {i : Nat} {v : Int} {rest : List Int}
    (h : s.workers[i]? = some (Worker.mk false (v :: rest))) :
    mergeApply s (.forward i) =
      some { s with workers := s.workers.set i (Worker.mk false rest)
                  , out := s.out ++ [v] } := by
  simp [mergeApply, h]

/-- A worker whose channel is drained and closed can always exit. -/
theorem mergeApply_exitDone_enabled {s : MergeState} {i : Nat}
    (h : s.workers[i]? = some (Worker.mk false [])) :
    mergeApply s (.exitDone i) =
      some { s with workers := s.workers.set i (Worker.mk true [])
                  , counter := s.counter - 1 } := by
  simp [mergeApply, h]

/-- Once the WaitGroup is satisfied, the closing goroutine can close. -/
theorem mergeApply_close_enabled {s : MergeState}
    (h0 : s.counter = 0) (hc : s.closed = false) :
    mergeApply s .close = some { s with closed := true } := by
  simp [mergeApply, h0, hc]

/-- A closed state that satisfies the invariant has forwarded exactly
the inbound values. -/
theorem mergeDone_of_closed {F : List Int} {s : MergeState}
    (hInv : Inv F s) (hnc : drainedExits s.workers) (hc : s.closed = true) :
    List.Perm s.out F := by
  obtain ⟨h1, h2, h3⟩ := hInv
  have hall := countUnexited_zero s.workers (h2 hc)
  have hjp : joinPending s.workers = [] :=
    joinPending_nil s.workers (fun w hw => hnc w hw (hall w hw))
  rw [hjp] at h3
  simpa using h3

/-- Liveness: from any cancellation-free reachable state the remaining
goroutines can finish on their own — every worker drains and exits, the
closing goroutine closes out (exactly once if it was still open), and
out ends up holding exactly the inbound values. -/
theorem mergeComplete (F : List Int) :
    ∀ (n : Nat) (s : MergeState), mu s ≤ n → Inv F s → drainedExits s.workers →
      ∃ as s2, cancelFree as = true ∧ mergeRun s as = some s2 ∧ s2.closed = true ∧
        List.Perm s2.out F ∧ countClose as = (if s.closed then 0 else 1)
  | 0, s, hn, hInv, hnc => by
    have hc : s.closed = true := by
      cases hcl : s.closed with
      | false =>
        exfalso
        have : 1 ≤ mu s := by
          simp [mu, hcl]
        omega
      | true => rfl
    exact ⟨[], s, rfl, rfl, hc, mergeDone_of_closed hInv hnc hc, by simp [hc, countClose]⟩
  | n + 1, s, hn, hInv, hnc => by
    cases hcl : s.closed with
    | true =>
      exact ⟨[], s, rfl, rfl, hcl, mergeDone_of_closed hInv hnc hcl,
        by simp [hcl, countClose]⟩
    | false =>
      by_cases hcu : countUnexited s.workers = 0
      · have hc0 : s.counter = 0 := hInv.1.trans hcu
        have happ := mergeApply_close_enabled hc0 hcl
        have hInv1 : Inv F { s with closed := true } := mergeApply_inv hInv happ
        have hnc1 : drainedExits ({ s with closed := true }).workers := hnc
        have hmu : mu { s with closed := true } ≤ n := by
          have := mergeApply_mu happ
          omega
        obtain ⟨as2, s2, hcf, hrun, hc2, hperm, hcnt⟩ :=
          mergeComplete F n { s with closed := true } hmu hInv1 hnc1
        refine ⟨MAction.close :: as2, s2, ?_, ?_, hc2, hperm, ?_⟩
        · simpa [cancelFree, isCancel] using hcf
        · simp only [mergeRun, happ]
          exact hrun
        · have hz : countClose as2 = 0 := by simpa using hcnt
          simp [countClose, isClose, hz, hcl]
      · obtain ⟨i, p, hip⟩ := countUnexited_pos s.workers hcu
        cases p with
        | nil =>
          have happ := mergeApply_exitDone_enabled hip
          have hInv1 := mergeApply_inv hInv happ
          have hnc1 := mergeApply_nc hnc (by simp [isCancel]) happ
          have hmu : mu { s with workers := s.workers.set i (Worker.mk true [])
                               , counter := s.counter - 1 } ≤ n := by
            have := mergeApply_mu happ
            omega
          obtain ⟨as2, s2, hcf, hrun, hc2, hperm, hcnt⟩ :=
            mergeComplete F n _ hmu hInv1 hnc1
          refine ⟨MAction.exitDone i :: as2, s2, ?_, ?_, hc2, hperm, ?_⟩
          · simpa [cancelFree, isCancel] using hcf
          · simp only [mergeRun, happ]
            exact hrun
          · have hone : countClose as2 = 1 := by simpa [hcl] using hcnt
            simp [countClose, isClose, hone, hcl]
        | cons v rest =>
          have happ := mergeApply_forward_enabled hip
          have hInv1 := mergeApply_inv hInv happ
          have hnc1 := mergeApply_nc hnc (by simp [isCancel]) happ
          have hmu : mu { s with workers := s.workers.set i (Worker.mk false rest)
                               , out := s.out ++ [v] } ≤ n := by
            have := mergeApply_mu happ
            omega
          obtain ⟨as2, s2, hcf, hrun, hc2, hperm, hcnt⟩ :=
            mergeComplete F n _ hmu hInv1 hnc1
          refine ⟨MAction.forward i :: as2, s2, ?_, ?_, hc2, hperm, ?_⟩
          · simpa [cancelFree, isCancel] using hcf
          · simp only [mergeRun, happ]
            exact hrun
          · have hone : countClose as2 = 1 := by simpa [hcl] using hcnt
            simp [countClose, isClose, hone, hcl]

/-- The invariant holds right after merge spawns its goroutines. -/
theorem mergeInit_inv (chs : List (List Int)) : Inv (flat chs) (mergeInit chs) := by
  refine ⟨?_, ?_, ?_⟩
  · show chs.length = countUnexited (chs.map fun p => { exited := false, pending := p })
    rw [countUnexited_map]
  · intro hcl
    simp [mergeInit] at hcl
  · show List.Perm ([] ++ joinPending (chs.map fun p => { exited := false, pending := p }))
      (flat chs)
    rw [joinPending_map]
    simp

/-- Freshly spawned workers trivially satisfy the drained-exit
discipline: none has exited. -/
theorem mergeInit_nc (chs : List (List Int)) : drainedExits (mergeInit chs).workers := by
  intro w hw hex
  simp [mergeInit] at hw
  obtain ⟨p, _, hw⟩ := hw
  rw [← hw] at hex
  simp at hex

/-- A merge step never changes the number of workers. -/
theorem mergeApply_length {s s2 : MergeState} {a : MAction}
    (ha : mergeApply s a = some s2) : s2.workers.length = s.workers.length := by
  rcases mergeApply_cases ha with
    ⟨i, v, rest, heq, _, hs2⟩ | ⟨i, heq, _, hs2⟩ | ⟨i, v, rest, heq, _, hs2⟩ |
    ⟨_, _, _, hs2⟩ <;> subst hs2 <;> simp

/-- No schedule changes the number of workers. -/
theorem mergeRun_length :
    ∀ (as : List MAction) (s s2 : MergeState),
      mergeRun s as = some s2 → s2.workers.length = s.workers.length
  | [], s, s2, hr => by
    rw [mergeRun] at hr
    injection hr with hr
    rw [hr]
  | a :: as, s, s2, hr => by
    rw [mergeRun] at hr
    cases happ : mergeApply s a with
    | none =>
      rw [happ] at hr
      exact absurd hr (by simp)
    | some s1 =>
      rw [happ] at hr
      rw [mergeRun_length as s1 s2 hr, mergeApply_length happ]

/-!
## Claims about the merge stage and the whole scenario
-/

/-- Claim C3: for every number N of inbound channels, the merge outbound
channel is closed exactly once (at most one close action in any schedule,
and the state is closed exactly when one fired, with a completing
continuation making it exactly one overall); absent cancellation it is
closed only after all N inbound channels have been fully drained and
closed — never prematurely, the forwarded values being exactly the
inbound ones — and the close is performed by the single coordinating
goroutine gated on the WaitGroup barrier initialized to N that each
forwarding goroutine decrements on exit (the counter mirrors the number
of unexited workers at every reachable state). -/
theorem merge_closes_once (chs : List (List Int)) (as : List MAction) (s : MergeState)
    (h : mergeRun (mergeInit chs) as = some s) :
    (mergeInit chs).counter = chs.length ∧
    countClose as ≤ 1 ∧
    (s.closed = true ↔ countClose as = 1) ∧
    s.counter = countUnexited s.workers ∧
    (s.closed = true → ∀ w ∈ s.workers, w.exited = true) ∧
    (cancelFree as = true →
      (s.closed = true → (∀ w ∈ s.workers, w.pending = []) ∧ List.Perm s.out (flat chs)) ∧
      ∃ as2 s2, cancelFree as2 = true ∧ mergeRun s as2 = some s2 ∧ s2.closed = true ∧
        List.Perm s2.out (flat chs) ∧ countClose (as ++ as2) = 1) := by
  have hInv := mergeRun_inv as (mergeInit chs) s (mergeInit_inv chs) h
  have hcnt := mergeRun_count as (mergeInit chs) s rfl h
  refine ⟨rfl, hcnt.1, hcnt.2, hInv.1, ?_, ?_⟩
  · intro hc
    exact countUnexited_zero s.workers (hInv.2.1 hc)
  · intro hcf
    have hnc := mergeRun_nc as (mergeInit chs) s (mergeInit_nc chs) hcf h
    constructor
    · intro hc
      have hall := countUnexited_zero s.workers (hInv.2.1 hc)
      exact ⟨fun w hw => hnc w hw (hall w hw), mergeDone_of_closed hInv hnc hc⟩
    · obtain ⟨as2, s2, hcf2, hrun2, hc2, hperm2, hcc2⟩ :=
        mergeComplete (flat chs) (mu s) s le_rfl hInv hnc
      refine ⟨as2, s2, hcf2, hrun2, hc2, hperm2, ?_⟩
      rw [countClose_append]
      cases hcls : s.closed with
      | false =>
        have h1 : countClose as2 = 1 := by simpa [hcls] using hcc2
        have hne : countClose as ≠ 1 := fun hh => by
          have := hcnt.2.mpr hh
          rw [hcls] at this
          exact absurd this (by simp)
        have h0 : countClose as = 0 := by
          have := hcnt.1
          omega
        rw [h0, h1]
      | true =>
        have h1 : countClose as2 = 0 := by simpa [hcls] using hcc2
        have h0 : countClose as = 1 := hcnt.2.mp hcls
        rw [h0, h1]

/-- Witness for claim C3 at a concrete two-channel instance. -/
theorem merge_closes_once_witness :
    countClose [MAction.forward 0, MAction.exitDone 0, MAction.forward 1,
      MAction.exitDone 1, MAction.close] = 1 := by
  have h := merge_closes_once [[1], [2]]
    [MAction.forward 0, MAction.exitDone 0, MAction.forward 1,
      MAction.exitDone 1, MAction.close]
    { workers := [Worker.mk true [], Worker.mk true []], counter := 0, closed := true
    , out := [1, 2] }
    (by decide)
  exact h.2.2.1.mp rfl

/-- Claim C10: invoked with zero inbound channels, merge emits no values
on its outbound channel under every schedule (hence for every
cancellation-token state), its barrier counter is zero from the start,
the closing goroutine can close immediately, and every reachable state
can be completed to one whose outbound channel is closed with nothing
ever emitted. -/
theorem merge_no_inputs (as : List MAction) (s : MergeState)
    (h : mergeRun (mergeInit []) as = some s) :
    s.out = [] ∧
    (mergeInit []).counter = 0 ∧
    mergeApply (mergeInit []) MAction.close = some { mergeInit [] with closed := true } ∧
    ∃ as2 s2, mergeRun s as2 = some s2 ∧ s2.closed = true ∧ s2.out = [] := by
  have hInv := mergeRun_inv as (mergeInit []) s (mergeInit_inv []) h
  have hlen : s.workers.length = 0 := by
    have := mergeRun_length as (mergeInit []) s h
    simpa [mergeInit] using this
  have hwnil : s.workers = [] := List.length_eq_zero.mp hlen
  have hnc : drainedExits s.workers := by
    rw [hwnil]
    intro w hw
    exact absurd hw (List.not_mem_nil w)
  have hout : s.out = [] := by
    have h3 := hInv.2.2
    rw [hwnil] at h3
    have h4 : List.Perm s.out [] := by simpa [joinPending, flat] using h3
    exact h4.eq_nil
  obtain ⟨as2, s2, _, hrun2, hc2, hperm2, _⟩ :=
    mergeComplete (flat []) (mu s) s le_rfl hInv hnc
  refine ⟨hout, rfl, mergeApply_close_enabled rfl rfl, as2, s2, hrun2, hc2, ?_⟩
  have : List.Perm s2.out [] := by simpa [flat] using hperm2
  exact this.eq_nil

/-- Witness for claim C10 at the schedule that closes immediately. -/
theorem merge_no_inputs_witness :
    ∃ as2 s2,
      mergeRun { workers := ([] : List Worker), counter := 0, closed := true
               , out := ([] : List Int) } as2 = some s2 ∧
      s2.closed = true ∧ s2.out = [] := by
  have h := merge_no_inputs [MAction.close]
    { workers := [], counter := 0, closed := true, out := [] } (by decide)
  exact h.2.2.2

/-- Claim C1: with input [15, 2, 9, 23, 91] fed through two parallel
square workers whose outputs are merged — however the source values are
distributed between the two workers, and under every cancellation-free
schedule that ends with the merged channel closed — the sum sink delivers
the single value 9120 on its result channel and closes it. -/
theorem pipeline_scenario (l1 l2 : List Int) (as : List MAction) (s : MergeState)
    (hsplit : List.Perm (l1 ++ l2) [15, 2, 9, 23, 91])
    (hnc : cancelFree as = true)
    (hrun : mergeRun (mergeInit [(power noCtx l1 0).1, (power noCtx l2 0).1]) as = some s)
    (hclosed : s.closed = true) :
    sum s.out = ([9120], true) := by
  have hInv := mergeRun_inv as _ s (mergeInit_inv _) hrun
  have hdr := mergeRun_nc as _ s (mergeInit_nc _) hnc hrun
  have hperm : List.Perm s.out (flat [(power noCtx l1 0).1, (power noCtx l2 0).1]) :=
    mergeDone_of_closed hInv hdr hclosed
  have hf : flat [(power noCtx l1 0).1, (power noCtx l2 0).1] =
      (l1 ++ l2).map (fun n => n * n) := by
    simp [flat, power_noCtx_map]
  rw [hf] at hperm
  have hperm2 : List.Perm s.out (([15, 2, 9, 23, 91] : List Int).map fun n => n * n) :=
    hperm.trans (List.Perm.map (fun n => n * n) hsplit)
  have hsum : s.out.sum = (9120 : Int) := by
    rw [hperm2.sum_eq]
    decide
  rw [sum_contract, hsum]

/-- Witness for claim C1 at a concrete distribution and schedule. -/
theorem pipeline_scenario_witness : sum [225, 4, 81, 529, 8281] = ([9120], true) := by
  have h := pipeline_scenario [15, 2, 9] [23, 91]
    [MAction.forward 0, MAction.forward 0, MAction.forward 0, MAction.forward 1,
      MAction.forward 1, MAction.exitDone 0, MAction.exitDone 1, MAction.close]
    { workers := [Worker.mk true [], Worker.mk true []], counter := 0, closed := true
    , out := [225, 4, 81, 529, 8281] }
    (List.Perm.refl _) (by decide) (by decide) rfl
  exact h

end PipelineGo
